import Mathlib

/-!
Shallow embedding of the `lengine` append-only log store (src/lib.rs,
src/log.rs, src/index.rs, src/engine.rs, src/flex/interval_tree.rs).

Files are modelled as byte lists (`List Nat`); machine-integer overflow
points of the Rust code (the `u64` log tail, the `u32` row counter, the
`usize → u32` cast in `Index::open`) are modelled as explicit guards that
return `none` (a Rust panic aborts the operation).  Fallible operations
return `Option`.
-/

namespace Lengine

/-- Little-endian byte serialization of `x` on `k` bytes, as
`byteorder::LittleEndian` writes it (`write_u16`, `write_u64_into`). -/
def toLE : Nat → Nat → List Nat
  | 0, _ => []
  | k + 1, x => x % 256 :: toLE k (x / 256)

/-- Little-endian byte deserialization, as `byteorder::LittleEndian` reads
(`read_u16_at`, `read_u64_into`). -/
def fromLE : List Nat → Nat
  | [] => 0
  | b :: bs => b + 256 * fromLE bs

/-- `src/log.rs` — `Log`: in-memory representation of a log file; the raw
file handle is modelled by the file's byte contents. -/
structure Log where
  file : List Nat
  deriving DecidableEq, Repr

/-- `src/log.rs` — `log::Transaction`: the buffered writer's not yet
flushed bytes, and the `tail` cursor. -/
structure LogTx where
  buffer : List Nat
  tail : Nat
  deriving DecidableEq, Repr

/-- `Log::transaction`: seek to end of file, capture that position as the
transaction's `tail`; the buffered writer starts empty. -/
def Log.transaction (lg : Log) : LogTx :=
  ⟨[], lg.file.length⟩

/-- `log::Transaction::append`: assert `entry.len() <= u16::MAX`, write the
little-endian `u16` length then the payload into the buffered writer,
return the pre-write tail, advance the tail by `2 + entry.len()` (a `u64`
addition, which must not overflow). -/
def LogTx.append (tx : LogTx) (entry : List Nat) : Option (Nat × LogTx) :=
  if entry.length ≤ 65535 ∧ tx.tail + (2 + entry.length) < 2 ^ 64 then
    some (tx.tail, ⟨tx.buffer ++ (toLE 2 entry.length ++ entry), tx.tail + (2 + entry.length)⟩)
  else none

/-- Sequence of `log::Transaction::append` calls, collecting the returned
offsets. -/
def LogTx.appendList (tx : LogTx) : List (List Nat) → Option (LogTx × List Nat)
  | [] => some (tx, [])
  | e :: es =>
    match LogTx.append tx e with
    | none => none
    | some (off, tx2) =>
      match LogTx.appendList tx2 es with
      | none => none
      | some (tx3, offs) => some (tx3, off :: offs)

/-- `log::Transaction::commit`: flush the buffered writer into the file
(then fsync, which has no effect on the byte contents). -/
def LogTx.commit (lg : Log) (tx : LogTx) : Log :=
  ⟨lg.file ++ tx.buffer⟩

/-- `positioned_io::ReadBytesAtExt::read_u16_at::<LE>`: reads exactly two
bytes at `off` (an error — `none` — if the file is too short). -/
def readU16At (file : List Nat) (off : Nat) : Option Nat :=
  match file[off]?, file[off + 1]? with
  | some b0, some b1 => some (b0 + 256 * b1)
  | _, _ => none

/-- `positioned_io::ReadAt::read_at` as `Engine::get` uses it: a single
positional read into a zero-initialized buffer of length `n`; a short read
leaves the zeroed tail in place (the returned count is ignored by
`Engine::get`). -/
def readAt (file : List Nat) (off n : Nat) : List Nat :=
  let r := (file.drop off).take n
  r ++ List.replicate (n - r.length) 0

/-- `src/index.rs` — `Index`: the index file's bytes, the in-memory offset
vector `map`, and `next_row`. -/
structure Index where
  file : List Nat
  map : List Nat
  next_row : Nat
  deriving DecidableEq, Repr

/-- `LittleEndian::write_u64_into` over a whole offset vector: each offset
as 8 little-endian bytes, laid end to end. -/
def serializeOffsets : List Nat → List Nat
  | [] => []
  | o :: os => toLE 8 o ++ serializeOffsets os

/-- `read_u64_into::<LittleEndian>`: parse `n` little-endian `u64` values
from the front of `bytes`. -/
def parseOffsets : Nat → List Nat → List Nat
  | 0, _ => []
  | k + 1, bytes => fromLE (bytes.take 8) :: parseOffsets k (bytes.drop 8)

/-- `Index::open`: learn the byte length, compute `n_rows = len / 8`
(integer division discards a partial tail entry), read `n_rows`
little-endian `u64`s into the in-memory vector, set
`next_row = n_rows` (a `usize → u32` conversion that must not overflow;
`none` models the panic).  The file is not rewritten. -/
def Index.openFile (file : List Nat) : Option Index :=
  let n := file.length / 8
  if n < 2 ^ 32 then some ⟨file, parseOffsets n file, n⟩ else none

/-- `Index::get`: `Ok(self.map.get(row as usize).cloned())` — never an
I/O error. -/
def Index.get (idx : Index) (row : Nat) : Option Nat :=
  idx.map[row]?

/-- `Index::sync_data`: append the new suffix `map[old_len..]`, serialized
as little-endian `u64`s, to the index file (then fsync). -/
def Index.syncData (idx : Index) (oldLen : Nat) : Index :=
  ⟨idx.file ++ serializeOffsets (idx.map.drop oldLen), idx.map, idx.next_row⟩

/-- `Index::reset`: sets `next_row = 0` only; neither the vector nor the
file is touched. -/
def Index.reset (idx : Index) : Index :=
  ⟨idx.file, idx.map, 0⟩

/-- `src/engine.rs` — `Engine`: an index and a log bound together.  (The
in-memory info map and the lock path do not affect the row/byte claims and
are modelled at the file-system layer where needed.) -/
structure Engine where
  index : Index
  log : Log
  deriving DecidableEq, Repr

/-- The engine over freshly created (empty) `IDX0` and `LOG0` files. -/
def Engine.fresh : Engine :=
  ⟨⟨[], [], 0⟩, ⟨[]⟩⟩

/-- `Engine::count` = `next_row() as usize`. -/
def Engine.count (e : Engine) : Nat :=
  e.index.next_row

/-- `Engine::get`: index lookup (`None` → `Ok(None)`), then read the
little-endian `u16` length at the offset, then positionally read that many
bytes at `offset + 2`.  Outer `none` is an I/O error. -/
def Engine.get (e : Engine) (row : Nat) : Option (Option (List Nat)) :=
  match e.index.map[row]? with
  | some off =>
    match readU16At e.log.file off with
    | none => none
    | some len => some (some (readAt e.log.file (off + 2) len))
  | none => some none

/-- `engine::Transaction::append` =
`index_tx.append(log_tx.append(entry)?)`: the log append yields the
offset; `index::Transaction::append` returns `next_row` as the new row id,
pushes the offset, and increments `next_row` (a `u32` increment that must
not overflow). -/
def Engine.txAppend (e : Engine) (ltx : LogTx) (entry : List Nat) :
    Option (Engine × LogTx × Nat) :=
  match LogTx.append ltx entry with
  | none => none
  | some (off, ltx2) =>
    if e.index.next_row + 1 < 2 ^ 32 then
      some (⟨⟨e.index.file, e.index.map ++ [off], e.index.next_row + 1⟩, e.log⟩,
            ltx2, e.index.next_row)
    else none

/-- A sequence of `engine::Transaction::append` calls inside one
transaction, collecting the `(row, entry)` pairs returned. -/
def Engine.txAppendList (e : Engine) (ltx : LogTx) :
    List (List Nat) → Option (Engine × LogTx × List (Nat × List Nat))
  | [] => some (e, ltx, [])
  | entry :: es =>
    match Engine.txAppend e ltx entry with
    | none => none
    | some (e2, ltx2, row) =>
      match Engine.txAppendList e2 ltx2 es with
      | none => none
      | some (e3, ltx3, rs) => some (e3, ltx3, (row, entry) :: rs)

/-- One engine transaction: its entries, and whether it is committed
(`commit = false` models dropping the transaction without commit). -/
structure Txn where
  entries : List (List Nat)
  commit : Bool
  deriving DecidableEq, Repr

/-- Run one `engine::Transaction`: `Engine::transaction` captures the log
tail (seek to end) and the index `old_len`; the entries are appended; then
either `commit` (flush the log writer into the file, then
`Index::sync_data(old_len)`) or drop (the `BufWriter`'s `Drop` flushes the
buffered bytes into the log file, errors ignored and modelled as success;
the index keeps its in-memory growth, its file is untouched). -/
def Engine.runTxn (e : Engine) (t : Txn) :
    Option (Engine × List (Nat × List Nat)) :=
  let oldLen := e.index.map.length
  match Engine.txAppendList e (Log.transaction e.log) t.entries with
  | none => none
  | some (e2, ltx2, rs) =>
    if t.commit then
      some (⟨Index.syncData e2.index oldLen, LogTx.commit e2.log ltx2⟩, rs)
    else
      some (⟨e2.index, LogTx.commit e2.log ltx2⟩, rs)

/-- `Engine::reset`: `log.reset()` is a no-op on the file; `index.reset()`
zeroes `next_row` only. -/
def Engine.reset (e : Engine) : Engine :=
  ⟨Index.reset e.index, e.log⟩

/-- Drop the engine and reopen it on the same directory: both files keep
their bytes; `Index::open` re-reads the index file; `Log::open` does not
scan. -/
def Engine.reopenE (e : Engine) : Option Engine :=
  match Index.openFile e.index.file with
  | none => none
  | some idx => some ⟨idx, e.log⟩

/-- Run a sequence of transactions from a given engine, collecting the
`(row, entry)` pairs returned by each. -/
def Engine.runHistoryAux (e : Engine) :
    List Txn → Option (Engine × List (List (Nat × List Nat)))
  | [] => some (e, [])
  | t :: ts =>
    match Engine.runTxn e t with
    | none => none
    | some (e2, rs) =>
      match Engine.runHistoryAux e2 ts with
      | none => none
      | some (e3, rss) => some (e3, rs :: rss)

/-- Run a sequence of transactions against a freshly opened engine. -/
def runHistory (h : List Txn) : Option (Engine × List (List (Nat × List Nat))) :=
  Engine.runHistoryAux Engine.fresh h

/-- Engine states reachable through the public surface: a fresh open,
transactions (committed or dropped), `reset` (only when `allowReset` is
set), and closing then reopening the directory. -/
inductive Reach : Bool → Engine → Prop
  | fresh (allowReset : Bool) : Reach allowReset Engine.fresh
  | txn {allowReset : Bool} {e e2 : Engine} {t : Txn} {rs : List (Nat × List Nat)} :
      Reach allowReset e → Engine.runTxn e t = some (e2, rs) → Reach allowReset e2
  | reset {e : Engine} : Reach true e → Reach true (Engine.reset e)
  | reopen {allowReset : Bool} {e e2 : Engine} :
      Reach allowReset e → Engine.reopenE e = some e2 → Reach allowReset e2

/-! ### Interval tree (`src/flex/interval_tree.rs`)

The arena (`slab::Slab<Node<K,V>>`) is modelled as a list of optional
nodes; a `none` slot is vacant.  Indexing a vacant slot panics in Rust and
is modelled by the operation returning `none`.  `K` and `V` are
instantiated at `Int` (the tests use `i32`).  Loops and the insert-repair
recursion are driven by fuel; the concrete traces below stay far under the
fuel bound. -/

inductive Color
  | red
  | black
  deriving DecidableEq, Repr

/-- `Node<K,V>`: an interval `[a, b)` with its augmentation `m`, color,
value and optional parent/left/right arena indices. -/
structure TNode where
  color : Color
  a : Int
  b : Int
  m : Int
  value : Int
  l : Option Nat
  r : Option Nat
  p : Option Nat
  deriving DecidableEq, Repr

/-- `IntervalTree<K,V>`: the optional root index and the arena. -/
structure ITree where
  root : Option Nat
  tree : List (Option TNode)
  deriving DecidableEq, Repr

/-- `IntervalTree::new` / `with_capacity`: empty arena, no root. -/
def ITree.empty : ITree :=
  ⟨none, []⟩

/-- Arena access `&self.tree[id]` — `none` when the slot is vacant or out
of range (a panic in Rust). -/
def ITree.node? (t : ITree) (i : Nat) : Option TNode :=
  match t.tree[i]? with
  | some (some n) => some n
  | _ => none

/-- Arena write through `node_mut` — panics (`none`) on a vacant slot. -/
def ITree.setNode (t : ITree) (i : Nat) (n : TNode) : Option ITree :=
  match t.tree[i]? with
  | some (some _) => some ⟨t.root, t.tree.set i (some n)⟩
  | _ => none

def ITree.modifyNode (t : ITree) (i : Nat) (f : TNode → TNode) : Option ITree := do
  let n ← t.node? i
  t.setNode i (f n)

/-- `Slab::insert`: place the node in a vacant slot if one exists,
otherwise grow the arena; returns the key.  (Only the grow path is
exercised by the traces below — no trace inserts after a removal.) -/
def ITree.slabInsert (t : ITree) (n : TNode) : ITree × Nat :=
  match t.tree.findIdx? (fun s => s.isNone) with
  | some i => (⟨t.root, t.tree.set i (some n)⟩, i)
  | none => (⟨t.root, t.tree ++ [some n]⟩, t.tree.length)

/-- `IntervalTree::free` = `Slab::remove` — panics (`none`) on a vacant
slot. -/
def ITree.free (t : ITree) (i : Nat) : Option ITree :=
  match t.tree[i]? with
  | some (some _) => some ⟨t.root, t.tree.set i none⟩
  | _ => none

/-- `IntervalTree::update`: recompute `m = max(b, l.m?, r.m?)` at `n`. -/
def ITree.update (t : ITree) (n : Nat) : Option ITree := do
  let node ← t.node? n
  let m0 := node.b
  let m1 ← match node.l with
    | none => pure m0
    | some l => do
      let ln ← t.node? l
      pure (max m0 ln.m)
  let m2 ← match node.r with
    | none => pure m1
    | some r => do
      let rn ← t.node? r
      pure (max m1 rn.m)
  t.setNode n { node with m := m2 }

/-- `IntervalTree::rotate_left` — panics (`none`) if `o.r` is `None`.
Field reads and writes follow the source order. -/
def ITree.rotateLeft (t : ITree) (o : Nat) : Option ITree := do
  let onode ← t.node? o
  let s ← onode.r
  let snode ← t.node? s
  let tt := snode.l
  let t1 ← match onode.p with
    | none => pure (ITree.mk (some s) t.tree)
    | some p => do
      let pn ← t.node? p
      if pn.l = some o then t.setNode p { pn with l := some s }
      else t.setNode p { pn with r := some s }
  let t2 ← t1.modifyNode s (fun x => { x with p := onode.p })
  let t3 ← t2.modifyNode o (fun x => { x with p := some s })
  let t4 ← match tt with
    | none => pure t3
    | some ti => t3.modifyNode ti (fun x => { x with p := some o })
  let t5 ← t4.modifyNode o (fun x => { x with r := tt })
  let t6 ← t5.modifyNode s (fun x => { x with l := some o })
  let t7 ← t6.update o
  t7.update s

/-- `IntervalTree::rotate_right` — mirror image of `rotate_left`. -/
def ITree.rotateRight (t : ITree) (o : Nat) : Option ITree := do
  let onode ← t.node? o
  let s ← onode.l
  let snode ← t.node? s
  let tt := snode.r
  let t1 ← match onode.p with
    | none => pure (ITree.mk (some s) t.tree)
    | some p => do
      let pn ← t.node? p
      if pn.l = some o then t.setNode p { pn with l := some s }
      else t.setNode p { pn with r := some s }
  let t2 ← t1.modifyNode s (fun x => { x with p := onode.p })
  let t3 ← t2.modifyNode o (fun x => { x with p := some s })
  let t4 ← match tt with
    | none => pure t3
    | some ti => t3.modifyNode ti (fun x => { x with p := some o })
  let t5 ← t4.modifyNode o (fun x => { x with l := tt })
  let t6 ← t5.modifyNode s (fun x => { x with r := some o })
  let t7 ← t6.update o
  t7.update s

/-- `IntervalTree::rotate_up` — panics (`none`) if `o` is the root. -/
def ITree.rotateUp (t : ITree) (o : Nat) : Option ITree := do
  let onode ← t.node? o
  let p ← onode.p
  let pn ← t.node? p
  if pn.l = some o then t.rotateRight p else t.rotateLeft p

/-- `IntervalTree::sibling_and_parent`.  Outer `none` is a panic on a
vacant arena slot; the inner option is the function's `Option` result. -/
def ITree.siblingParent (t : ITree) (n : Nat) : Option (Option (Nat × Nat)) := do
  let nn ← t.node? n
  match nn.p with
  | none => pure none
  | some p => do
    let pn ← t.node? p
    if pn.l = some n then pure (pn.r.map (fun r => (r, p)))
    else pure (pn.l.map (fun l => (l, p)))

/-- `IntervalTree::uncle_and_grandparent`. -/
def ITree.uncleGrand (t : ITree) (n : Nat) : Option (Option (Nat × Nat)) := do
  let nn ← t.node? n
  match nn.p with
  | none => pure none
  | some p => t.siblingParent p

/-- `FindKey` from the source. -/
inductive FindKey
  | Right (i : Nat)
  | Left (i : Nat)
  | This (i : Nat)
  deriving DecidableEq, Repr

/-- `IntervalTree::find_key_update`: walk from `cur` comparing `a` with
each node's key, updating `node.m = max(node.m, b)` along the path. -/
def ITree.findKeyUpdate : Nat → ITree → Nat → Int → Int → Option (ITree × FindKey)
  | 0, _, _, _, _ => none
  | fuel + 1, t, cur, a, b => do
    let node ← t.node? cur
    let node := { node with m := max node.m b }
    let t ← t.setNode cur node
    if a = node.a then pure (t, FindKey.This cur)
    else if a > node.a then
      match node.r with
      | some r => ITree.findKeyUpdate fuel t r a b
      | none => pure (t, FindKey.Right cur)
    else
      match node.l with
      | some l => ITree.findKeyUpdate fuel t l a b
      | none => pure (t, FindKey.Left cur)

/-- The shared tail of `repair_after_insert`'s non-recursive arm: the
grandparent `g` is captured from the original parent, a zig-zag is
straightened, the grandparent is rotated down, and colors are swapped. -/
def ITree.repairElse (t : ITree) (n p : Nat) : Option ITree := do
  let pn ← t.node? p
  let g ← pn.p
  let gn ← t.node? g
  let step ←
    if pn.r = some n ∧ gn.l = some p then do
      let t ← t.rotateLeft p
      let nn ← t.node? n
      let n2 ← nn.l
      pure (t, n2, n)
    else if pn.l = some n ∧ gn.r = some p then do
      let t ← t.rotateRight p
      let nn ← t.node? n
      let n2 ← nn.r
      pure (t, n2, n)
    else pure (t, n, p)
  let (t, n, p) := step
  let pn2 ← t.node? p
  let t ← if pn2.l = some n then t.rotateRight g else t.rotateLeft g
  let t ← t.modifyNode p (fun x => { x with color := Color.black })
  t.modifyNode g (fun x => { x with color := Color.red })

/-- `self.root_mut().unwrap().1.color = Black` — panics (`none`) when the
root is absent. -/
def ITree.blackenRoot (t : ITree) : Option ITree := do
  let rt ← t.root
  t.modifyNode rt (fun x => { x with color := Color.black })

/-- `IntervalTree::repair_after_insert`: red-black insert fixup.  A black
parent returns early (without touching the root's color); a red uncle
recolors and recurses on the grandparent; otherwise rotate and fall
through to painting the root black. -/
def ITree.repairAfterInsert : Nat → ITree → Nat → Option ITree
  | 0, _, _ => none
  | fuel + 1, t, n => do
    let nn ← t.node? n
    match nn.p with
    | some p => do
      let pn ← t.node? p
      if pn.color = Color.black then pure t
      else do
        let ug ← t.uncleGrand n
        match ug with
        | some (u, g) => do
          let un ← t.node? u
          if un.color = Color.red then do
            let t ← t.modifyNode u (fun x => { x with color := Color.black })
            let t ← t.modifyNode p (fun x => { x with color := Color.black })
            let t ← t.modifyNode g (fun x => { x with color := Color.red })
            ITree.repairAfterInsert fuel t g
          else do
            let t ← t.repairElse n p
            t.blackenRoot
        | none => do
          let t ← t.repairElse n p
          t.blackenRoot
    | none => t.blackenRoot

/-- Fuel bound used by the concrete traces (their trees have at most a
handful of nodes). -/
def itFuel : Nat := 100

/-- `IntervalTree::insert_nonoverlapping`: assert `b > a`; find the
landing parent while updating `m` along the path; allocate the new red
node; link it; repair.  A key-equal landing is `unreachable!()`. -/
def ITree.insertNonoverlapping (t : ITree) (a b : Int) (v : Int) : Option ITree := do
  if b > a then
    let node : TNode := ⟨Color.red, a, b, b, v, none, none, none⟩
    match t.root with
    | none =>
      let (t, id) := t.slabInsert node
      ITree.repairAfterInsert itFuel ⟨some id, t.tree⟩ id
    | some rootId => do
      let (t, fk) ← ITree.findKeyUpdate itFuel t rootId a b
      let (t, id) := t.slabInsert node
      match fk with
      | FindKey.Left pid => do
        let t ← t.modifyNode pid (fun x => { x with l := some id })
        let t ← t.modifyNode id (fun x => { x with p := some pid })
        ITree.repairAfterInsert itFuel t id
      | FindKey.Right pid => do
        let t ← t.modifyNode pid (fun x => { x with r := some id })
        let t ← t.modifyNode id (fun x => { x with p := some pid })
        ITree.repairAfterInsert itFuel t id
      | FindKey.This _ => none
  else none

/-- `FindResult` from the source. -/
inductive FindResult
  | Miss
  | Equal (i : Nat)
  | Outside (i : Nat)
  | Inside (i : Nat)
  | Left (i : Nat)
  | Right (i : Nat)
  deriving DecidableEq, Repr

/-- `IntervalTree::find_overlapping`: from the root, stop at the first
node whose interval overlaps `[a,b)`; otherwise descend left when the left
child exists and `a <= left.m`, else right.  Inner `none` means no
overlapping node was reached. -/
def ITree.findOverlapping : Nat → ITree → Option Nat → Int → Int → Option (Option Nat)
  | 0, _, _, _, _ => none
  | fuel + 1, t, cur, a, b =>
    match cur with
    | none => some none
    | some i => do
      let node ← t.node? i
      if b > node.a ∧ a < node.b then pure (some i)
      else do
        let goLeft ← match node.l with
          | some l => do
            let ln ← t.node? l
            pure (decide (a ≤ ln.m))
          | none => pure false
        if goLeft then ITree.findOverlapping fuel t node.l a b
        else ITree.findOverlapping fuel t node.r a b

/-- `IntervalTree::find`: locate an overlapping node, then classify the
query `[a,b)` against the node's `[na,nb)` by the `(cmp a na, cmp b nb)`
table.  The source's `debug_assert!` is modelled as a guard. -/
def ITree.find (t : ITree) (a b : Int) : Option FindResult := do
  let dest ← ITree.findOverlapping itFuel t t.root a b
  match dest with
  | none => pure FindResult.Miss
  | some d => do
    let node ← t.node? d
    if b > node.a ∧ a < node.b then
      pure (match compare a node.a, compare b node.b with
        | Ordering.eq, Ordering.eq => FindResult.Equal d
        | Ordering.lt, Ordering.gt => FindResult.Outside d
        | Ordering.lt, Ordering.eq => FindResult.Outside d
        | Ordering.eq, Ordering.gt => FindResult.Outside d
        | Ordering.gt, Ordering.lt => FindResult.Inside d
        | Ordering.gt, Ordering.eq => FindResult.Inside d
        | Ordering.eq, Ordering.lt => FindResult.Inside d
        | Ordering.lt, Ordering.lt => FindResult.Left d
        | Ordering.gt, Ordering.gt => FindResult.Right d)
    else none

/-- Descend to the leftmost node of the subtree rooted at `cur` (the
`while let` loop of `smallest_right`). -/
def ITree.descendLeft : Nat → ITree → Nat → Option Nat
  | 0, _, _ => none
  | fuel + 1, t, cur => do
    let cn ← t.node? cur
    match cn.l with
    | none => pure cur
    | some l => ITree.descendLeft fuel t l

/-- `IntervalTree::smallest_right`. -/
def ITree.smallestRight (t : ITree) (cur : Nat) : Option (Option Nat) := do
  let cn ← t.node? cur
  match cn.r with
  | none => pure none
  | some r => do
    let res ← ITree.descendLeft itFuel t r
    pure (some res)

/-- `IntervalTree::swap`: `ptr::swap` of the two whole nodes followed by
`ptr::swap` of their parent fields — net effect: every field except `p` is
exchanged. -/
def ITree.swap (t : ITree) (p q : Nat) : Option ITree := do
  let pn ← t.node? p
  let qn ← t.node? q
  let t ← t.setNode p { qn with p := pn.p }
  t.setNode q { pn with p := qn.p }

/-- `IntervalTree::replace`: make `v` take `u`'s place under `u`'s parent
(panics — `none` — if `u` is the root), then `update` the parent. -/
def ITree.replaceNode (t : ITree) (u v : Nat) : Option ITree := do
  let un ← t.node? u
  let up ← un.p
  let t ← t.modifyNode v (fun x => { x with p := some up })
  let upn ← t.node? up
  let t ←
    if upn.l = some u then t.setNode up { upn with l := some v }
    else t.setNode up { upn with r := some v }
  t.update up

/-- `IntervalTree::bubble_black`: the double-black bubbling loop, with the
source's exact reads and writes (including reading `node(p).color` after
it has just been set to black). -/
def ITree.bubbleBlack : Nat → ITree → Nat → Option ITree
  | 0, _, _ => none
  | fuel + 1, t, n => do
    let nn ← t.node? n
    if nn.p = none then pure t
    else if nn.color = Color.red then
      t.modifyNode n (fun x => { x with color := Color.black })
    else do
      let sp ← t.siblingParent n
      let (s, p) ← sp
      let pn ← t.node? p
      let pColor := pn.color
      let sn ← t.node? s
      let sl := sn.l
      let sr := sn.r
      if sn.color = Color.red then do
        let t ← t.rotateUp s
        let t ← t.modifyNode s (fun x => { x with color := Color.black })
        let t ← t.modifyNode p (fun x => { x with color := Color.red })
        ITree.bubbleBlack fuel t n
      else do
        let slRed ← match sl with
          | some sli => do
            let x ← t.node? sli
            pure (decide (x.color = Color.red))
          | none => pure false
        if slRed then do
          let sli ← sl
          let t ← t.rotateUp sli
          let t ← t.rotateUp sli
          t.modifyNode sli (fun x => { x with color := pColor })
        else do
          let srRed ← match sr with
            | some sri => do
              let x ← t.node? sri
              pure (decide (x.color = Color.red))
            | none => pure false
          if srRed then do
            let sri ← sr
            let t ← t.rotateUp s
            let t ← t.modifyNode s (fun x => { x with color := pColor })
            t.modifyNode sri (fun x => { x with color := Color.black })
          else do
            let t ← t.modifyNode s (fun x => { x with color := Color.red })
            let t ← t.modifyNode p (fun x => { x with color := Color.black })
            let pn2 ← t.node? p
            if pn2.color = Color.black then ITree.bubbleBlack fuel t p
            else pure t

/-- `IntervalTree::unlink_one`: a red node needs nothing; otherwise the
right child (if any) replaces `n`, and the bubble starts at
`r.unwrap()` — a panic (`none`) when there is no right child. -/
def ITree.unlinkOne (t : ITree) (n : Nat) : Option ITree := do
  let nn ← t.node? n
  let r := nn.r
  if nn.color = Color.red then pure t
  else do
    let t ← match r with
      | some ri => t.replaceNode n ri
      | none => pure t
    let ri ← r
    ITree.bubbleBlack itFuel t ri

/-- `IntervalTree::remove`, exactly as written in the source: compute the
successor; in the no-successor cases free `del` first (so the subsequent
`self.node(del)` access of the left-child case is a use-after-free panic,
and the leaf case unconditionally clears the root); otherwise swap with
the successor, unlink it, and free it.  The maintenance step after the
comment `// Maintain` is absent in the source. -/
def ITree.remove (t : ITree) (del : Nat) : Option ITree := do
  let repl ← t.smallestRight del
  let dn ← t.node? del
  match repl with
  | none =>
    if dn.l = none then do
      let t ← t.free del
      pure ⟨none, t.tree⟩
    else do
      let t ← t.free del
      let dn2 ← t.node? del
      let t := ITree.mk dn2.l t.tree
      let (rt, _) ← (t.root.bind (fun x => (t.node? x).map (fun y => (x, y))) : Option (Nat × TNode))
      t.modifyNode rt (fun x => { x with p := none })
  | some repl => do
    let t ← t.swap del repl
    let t ← t.unlinkOne repl
    t.free repl

/-! #### Invariant checkers (the claim's four structural invariants) -/

/-- Per-node structural checks: each child index is occupied, ordered by
left endpoint against the parent, and points back to the parent
(BST + parent/child consistency); the augmentation equation holds; a red
node has no red child. -/
def ITree.checkNode (t : ITree) (i : Nat) (n : TNode) : Bool :=
  (match n.l with
    | none => true
    | some c =>
      match t.node? c with
      | none => false
      | some cn => decide (cn.a ≤ n.a) && decide (cn.p = some i)) &&
  (match n.r with
    | none => true
    | some c =>
      match t.node? c with
      | none => false
      | some cn => decide (n.a ≤ cn.a) && decide (cn.p = some i)) &&
  (match n.l, n.r with
    | none, none => decide (n.m = n.b)
    | some c, none =>
      match t.node? c with
      | none => false
      | some cn => decide (n.m = max n.b cn.m)
    | none, some c =>
      match t.node? c with
      | none => false
      | some cn => decide (n.m = max n.b cn.m)
    | some c, some d =>
      match t.node? c, t.node? d with
      | some cn, some dn => decide (n.m = max n.b (max cn.m dn.m))
      | _, _ => false) &&
  (match n.color with
    | Color.black => true
    | Color.red =>
      (match n.l with
        | none => true
        | some c =>
          match t.node? c with
          | none => false
          | some cn => decide (cn.color = Color.black)) &&
      (match n.r with
        | none => true
        | some c =>
          match t.node? c with
          | none => false
          | some cn => decide (cn.color = Color.black)))

/-- Black height of the subtree at `cur` (counting the nil leaves as in
the source's `count_black`); `none` when the two sides disagree somewhere
or a slot is vacant. -/
def ITree.blackHeight : Nat → ITree → Option Nat → Option Nat
  | 0, _, _ => none
  | _, _, none => some 1
  | fuel + 1, t, some i => do
    let n ← t.node? i
    let hl ← ITree.blackHeight fuel t n.l
    let hr ← ITree.blackHeight fuel t n.r
    if hl = hr then
      pure (if n.color = Color.black then hl + 1 else hl)
    else none

/-- The four structural invariants of the claim, over the whole arena:
BST order on left endpoints, color rules (black root, no red-red) with a
uniform black height from the root, the `m` augmentation, and mutual
parent/child consistency. -/
def ITree.checkInvariants (t : ITree) : Bool :=
  ((List.range t.tree.length).all (fun i =>
    match t.node? i with
    | none => true
    | some n => t.checkNode i n)) &&
  (match t.root with
    | none => true
    | some rt =>
      match t.node? rt with
      | none => false
      | some rn => decide (rn.color = Color.black) && decide (rn.p = none)) &&
  (ITree.blackHeight itFuel t t.root).isSome

/-- Is there an occupied node whose interval `[na,nb)` overlaps `[a,b)`
(overlap in the spec's sense: `b > na ∧ a < nb`)? -/
def ITree.overlapExists (t : ITree) (a b : Int) : Bool :=
  (List.range t.tree.length).any (fun i =>
    match t.node? i with
    | none => false
    | some n => decide (b > n.a ∧ a < n.b))

/-- C4 failing trace: insert `[0,1)` and `[1,2)` (disjoint, `b > a`), then
remove the node at arena index 1 (present, a red leaf that is not the
root). -/
def c4Run : Option ITree := do
  let t ← ITree.empty.insertNonoverlapping 0 1 0
  let t ← t.insertNonoverlapping 1 2 0
  t.remove 1

/-- C5 failing trace: three disjoint inserts building a tree whose left
child has `m = 10`. -/
def c5Tree : Option ITree := do
  let t ← ITree.empty.insertNonoverlapping 5 6 0
  let t ← t.insertNonoverlapping 0 10 0
  t.insertNonoverlapping 12 15 0

/-! ### Directory lifecycle (`Engine::open`, `Drop for Engine`)

The repository directory is modelled by flags for the existence and kind
of `path`, the `LOCK` sentinel, and the two data files; `idxOpenOk` /
`logOpenOk` inject I/O failures into the respective `open` steps
(`Index::open`, `Log::open`). -/

structure Fs where
  pathExists : Bool
  isDir : Bool
  lockExists : Bool
  idxFile : Option (List Nat)
  logFile : Option (List Nat)
  idxOpenOk : Bool
  logOpenOk : Bool
  deriving DecidableEq, Repr

inductive OpenErr
  | notADirectory
  | busy
  | ioError
  deriving DecidableEq, Repr

inductive OpenOutcome
  | ok (fs : Fs) (e : Engine)
  | err (fs : Fs) (oe : OpenErr)
  deriving DecidableEq, Repr

/-- `Engine::open`: fail `ENOTDIR` if `path` exists and is not a
directory; create the directory if absent; fail `EBUSY` if `path/LOCK`
exists, else create it; open (creating if absent) `path/IDX0` then
`path/LOG0`.  An error in a later step returns with the `LOCK` file
already created.  The outer `none` is the `Index::open` row-count panic. -/
def engineOpen (fs : Fs) : Option OpenOutcome :=
  if fs.pathExists ∧ ¬fs.isDir then some (OpenOutcome.err fs OpenErr.notADirectory)
  else
    let fs1 := if fs.pathExists then fs else
      { fs with pathExists := true, isDir := true }
    if fs1.lockExists then some (OpenOutcome.err fs1 OpenErr.busy)
    else
      let fs2 := { fs1 with lockExists := true }
      if ¬fs2.idxOpenOk then some (OpenOutcome.err fs2 OpenErr.ioError)
      else
        let ib := fs2.idxFile.getD []
        let fs3 := { fs2 with idxFile := some ib }
        match Index.openFile ib with
        | none => none
        | some idx =>
          if ¬fs3.logOpenOk then some (OpenOutcome.err fs3 OpenErr.ioError)
          else
            let lb := fs3.logFile.getD []
            let fs4 := { fs3 with logFile := some lb }
            some (OpenOutcome.ok fs4 ⟨idx, ⟨lb⟩⟩)

/-- `Drop for Engine`: `fs::remove_file(&self.lock_path)`, best effort. -/
def engineDrop (fs : Fs) : Fs :=
  { fs with lockExists := false }

/-! ### Statements of the universally quantified spec claims -/

/-- An entry record as `Engine::get` expects it inside the log file: the
two little-endian length bytes at `off`, followed by the payload, all
within the file. -/
def entryAt (file : List Nat) (off : Nat) (bytes : List Nat) : Prop :=
  off + (2 + bytes.length) ≤ file.length ∧
    (file.drop off).take (2 + bytes.length) = toLE 2 bytes.length ++ bytes

/-- Claim C1 as stated: over every history of transactions, every `(row,
bytes)` pair returned by a committed transaction's appends is readable
back through `Engine::get`, on the live engine and after reopening. -/
def C1Statement : Prop :=
  ∀ (h : List Txn) (e : Engine) (rss : List (List (Nat × List Nat))),
    runHistory h = some (e, rss) →
    ∀ (k : Nat) (t : Txn) (rs : List (Nat × List Nat)),
      h[k]? = some t → rss[k]? = some rs → t.commit = true →
      ∀ rb ∈ rs, rb.2.length ≤ 65535 →
        e.get rb.1 = some (some rb.2) ∧
        ∃ e2, e.reopenE = some e2 ∧ e2.get rb.1 = some (some rb.2)

/-- Claim C3 as stated: in every reachable engine state, `get` is `Some`
strictly below `count()` and `None` from `count()` on. -/
def C3Statement : Prop :=
  ∀ e, Reach true e →
    ∀ r, (r < e.count → ∃ bs, e.get r = some (some bs)) ∧
      (e.count ≤ r → e.get r = some none)

/-! ### Little-endian serialization lemmas -/

theorem toLE_length (k x : Nat) : (toLE k x).length = k := by
  induction k generalizing x with
  | zero => rfl
  | succ k ih => simp [toLE, ih]

theorem fromLE_toLE (k x : Nat) : fromLE (toLE k x) = x % 256 ^ k := by
  induction k generalizing x with
  | zero => simp [toLE, fromLE, Nat.mod_one]
  | succ k ih =>
    rw [toLE, fromLE, ih, pow_succ']
    exact Nat.mod_mul.symm

theorem serializeOffsets_length (v : List Nat) :
    (serializeOffsets v).length = 8 * v.length := by
  induction v with
  | nil => rfl
  | cons o os ih =>
    simp [serializeOffsets, toLE_length, ih]
    omega

theorem serializeOffsets_append (v w : List Nat) :
    serializeOffsets (v ++ w) = serializeOffsets v ++ serializeOffsets w := by
  induction v with
  | nil => rfl
  | cons o os ih => simp [serializeOffsets, ih]

theorem parseOffsets_length (n : Nat) (bytes : List Nat) :
    (parseOffsets n bytes).length = n := by
  induction n generalizing bytes with
  | zero => rfl
  | succ k ih => simp [parseOffsets, ih]

theorem parseOffsets_append (a b : Nat) (xs ys : List Nat) (h : xs.length = 8 * a) :
    parseOffsets (a + b) (xs ++ ys) = parseOffsets a xs ++ parseOffsets b ys := by
  induction a generalizing xs with
  | zero =>
    have hx : xs = [] := List.eq_nil_of_length_eq_zero (by omega)
    subst hx
    simp [parseOffsets]
  | succ k ih =>
    have h8 : (xs.take 8).length = 8 := by rw [List.length_take]; omega
    have hds : (xs.drop 8).length = 8 * k := by rw [List.length_drop]; omega
    have hx : xs.take 8 ++ xs.drop 8 = xs := List.take_append_drop 8 xs
    rw [Nat.succ_add, parseOffsets, parseOffsets, ← hx, List.append_assoc,
      List.take_left' h8, List.drop_left' h8, List.take_left' h8, List.drop_left' h8,
      ih _ hds]
    rfl

theorem parseOffsets_serialize (v : List Nat) :
    parseOffsets v.length (serializeOffsets v) = v.map (fun o => o % 2 ^ 64) := by
  induction v with
  | nil => rfl
  | cons o os ih =>
    rw [List.length_cons, serializeOffsets, parseOffsets,
      List.take_left' (toLE_length 8 o), List.drop_left' (toLE_length 8 o),
      fromLE_toLE, ih, List.map_cons]
    norm_num

theorem parseOffsets_serialize_of_lt (v : List Nat) (hv : ∀ o ∈ v, o < 2 ^ 64) :
    parseOffsets v.length (serializeOffsets v) = v := by
  rw [parseOffsets_serialize]
  induction v with
  | nil => rfl
  | cons o os ih =>
    rw [List.map_cons, Nat.mod_eq_of_lt (hv o (List.mem_cons_self o os)),
      ih (fun x hx => hv x (List.mem_cons_of_mem o hx))]

/-! ### Entry-record reading lemmas -/

theorem entryAt_append {f : List Nat} (g : List Nat) {o : Nat} {b : List Nat}
    (h : entryAt f o b) : entryAt (f ++ g) o b := by
  obtain ⟨h1, h2⟩ := h
  constructor
  · rw [List.length_append]
    omega
  · have hdrop : (f ++ g).drop o = f.drop o ++ g :=
      List.drop_append_of_le_length (by omega)
    rw [hdrop, List.take_append_of_le_length (by rw [List.length_drop]; omega), h2]

theorem entryAt_read {f : List Nat} {o : Nat} {b : List Nat}
    (h : entryAt f o b) (hlen : b.length ≤ 65535) :
    readU16At f o = some b.length ∧ readAt f (o + 2) b.length = b := by
  obtain ⟨h1, h2⟩ := h
  have hdl : (f.drop o).length = f.length - o := List.length_drop o f
  have hb0 : f[o]? = some (b.length % 256) := by
    have e0 : ((f.drop o).take (2 + b.length))[0]? = (f.drop o)[0]? :=
      List.getElem?_take_of_lt (by omega)
    rw [List.getElem?_drop] at e0
    rw [h2] at e0
    simpa using e0.symm
  have hb1 : f[o + 1]? = some (b.length / 256 % 256) := by
    have e1 : ((f.drop o).take (2 + b.length))[1]? = (f.drop o)[1]? :=
      List.getElem?_take_of_lt (by omega)
    rw [List.getElem?_drop] at e1
    rw [h2] at e1
    simpa [toLE] using e1.symm
  constructor
  · rw [readU16At, hb0, hb1]
    show some (b.length % 256 + 256 * (b.length / 256 % 256)) = some b.length
    have hmm : b.length % 256 + 256 * (b.length / 256 % 256) = b.length % (256 * 256) :=
      Nat.mod_mul.symm
    rw [hmm, Nat.mod_eq_of_lt (by omega)]
  · rw [readAt]
    have hdrop2 : f.drop (o + 2) = (f.drop o).drop 2 := (List.drop_drop 2 o f).symm
    have htake : ((f.drop o).drop 2).take b.length =
        ((f.drop o).take (2 + b.length)).drop 2 := List.take_drop 2 b.length (f.drop o)
    rw [hdrop2, htake, h2]
    have : (toLE 2 b.length ++ b).drop 2 = b := List.drop_left' (toLE_length 2 b.length)
    rw [this]
    simp

/-! ### Engine invariants for committed histories -/

/-- Invariant maintained inside an open transaction: rows/offsets recorded
so far are readable from the "virtual" log contents (file plus the
buffered writer). -/
def TxInv (e : Engine) (ltx : LogTx) (rows : List (Nat × List Nat)) : Prop :=
  e.index.next_row = e.index.map.length ∧
  e.index.map.length < 2 ^ 32 ∧
  ltx.tail = e.log.file.length + ltx.buffer.length ∧
  (∀ o ∈ e.index.map, o + 2 ≤ e.log.file.length + ltx.buffer.length ∧ o < 2 ^ 64) ∧
  (∀ rb ∈ rows, rb.2.length ≤ 65535 ∧ ∃ off, e.index.map[rb.1]? = some off ∧
    entryAt (e.log.file ++ ltx.buffer) off rb.2)

/-- Invariant between transactions in an all-committed history: the index
file is the serialization of the in-memory vector, and every `(row,
entry)` pair ever returned is readable from the log file at the offset the
vector records for that row. -/
def EngInv (e : Engine) (rows : List (Nat × List Nat)) : Prop :=
  e.index.next_row = e.index.map.length ∧
  e.index.map.length < 2 ^ 32 ∧
  e.index.file = serializeOffsets e.index.map ∧
  (∀ o ∈ e.index.map, o + 2 ≤ e.log.file.length ∧ o < 2 ^ 64) ∧
  (∀ rb ∈ rows, rb.2.length ≤ 65535 ∧ ∃ off, e.index.map[rb.1]? = some off ∧
    entryAt e.log.file off rb.2)

theorem txAppend_inv {e : Engine} {ltx : LogTx} {entry : List Nat} {e2 : Engine}
    {ltx2 : LogTx} {row : Nat} {rows : List (Nat × List Nat)}
    (h : Engine.txAppend e ltx entry = some (e2, ltx2, row))
    (hinv : TxInv e ltx rows) :
    TxInv e2 ltx2 (rows ++ [(row, entry)]) ∧ e2.log = e.log ∧
      e2.index.file = e.index.file ∧ e2.index.map = e.index.map ++ [ltx.tail] := by
  obtain ⟨h1, h2, h3, h4, h5⟩ := hinv
  unfold Engine.txAppend LogTx.append at h
  by_cases hc : entry.length ≤ 65535 ∧ ltx.tail + (2 + entry.length) < 2 ^ 64
  case neg =>
    rw [if_neg hc] at h
    exact absurd h (by simp)
  case pos =>
    rw [if_pos hc] at h
    simp only [] at h
    by_cases hn : e.index.next_row + 1 < 2 ^ 32
    case neg =>
      rw [if_neg hn] at h
      exact absurd h (by simp)
    case pos =>
      rw [if_pos hn] at h
      simp only [Option.some.injEq, Prod.mk.injEq] at h
      obtain ⟨he2, hltx2, hrow⟩ := h
      subst he2
      subst hltx2
      subst hrow
      refine ⟨⟨?_, ?_, ?_, ?_, ?_⟩, rfl, rfl, rfl⟩
      · simp [h1]
      · simp only [List.length_append, List.length_cons, List.length_nil]
        omega
      · simp only [List.length_append, toLE_length, List.length_cons]
        omega
      · intro o ho
        rcases List.mem_append.mp ho with hmo | hmo
        · have := h4 o hmo
          simp only [List.length_append, toLE_length]
          constructor
          · omega
          · exact this.2
        · have hoe : o = ltx.tail := by simpa using hmo
          subst hoe
          simp only [List.length_append, toLE_length]
          constructor
          · omega
          · omega
      · intro rb hrb
        rcases List.mem_append.mp hrb with hmo | hmo
        · obtain ⟨hl, off, hoff, hent⟩ := h5 rb hmo
          refine ⟨hl, off, ?_, ?_⟩
          · rw [List.getElem?_append_left]
            · exact hoff
            · exact (List.getElem?_eq_some_iff.mp hoff).1
          · have : e.log.file ++ (ltx.buffer ++ (toLE 2 entry.length ++ entry)) =
                (e.log.file ++ ltx.buffer) ++ (toLE 2 entry.length ++ entry) := by
              rw [List.append_assoc]
            rw [this]
            exact entryAt_append _ hent
        · have hre : rb = (e.index.next_row, entry) := by simpa using hmo
          subst hre
          refine ⟨hc.1, ltx.tail, ?_, ?_, ?_⟩
          · rw [h1]
            exact List.getElem?_concat_length e.index.map ltx.tail
          · simp only [List.length_append, toLE_length]
            omega
          · have hsplit : e.log.file ++ (ltx.buffer ++ (toLE 2 entry.length ++ entry)) =
                (e.log.file ++ ltx.buffer) ++ (toLE 2 entry.length ++ entry) := by
              rw [List.append_assoc]
            rw [hsplit]
            have hdrop : ((e.log.file ++ ltx.buffer) ++ (toLE 2 entry.length ++ entry)).drop
                ltx.tail = toLE 2 entry.length ++ entry := by
              apply List.drop_left'
              rw [List.length_append]
              omega
            rw [hdrop]
            apply List.take_of_length_le
            rw [List.length_append, toLE_length]

theorem txAppendList_inv :
    ∀ (es : List (List Nat)) (e : Engine) (ltx : LogTx) (e2 : Engine) (ltx2 : LogTx)
      (rs rows : List (Nat × List Nat)),
      Engine.txAppendList e ltx es = some (e2, ltx2, rs) →
      TxInv e ltx rows →
      TxInv e2 ltx2 (rows ++ rs) ∧ e2.log = e.log ∧ e2.index.file = e.index.file ∧
        ∃ delta, e2.index.map = e.index.map ++ delta := by
  intro es
  induction es with
  | nil =>
    intro e ltx e2 ltx2 rs rows h hinv
    simp only [Engine.txAppendList, Option.some.injEq, Prod.mk.injEq] at h
    obtain ⟨he, hl, hr⟩ := h
    subst he
    subst hl
    subst hr
    exact ⟨by simpa using hinv, rfl, rfl, [], by simp⟩
  | cons entry es ih =>
    intro e ltx e2 ltx2 rs rows h hinv
    rw [Engine.txAppendList] at h
    rcases ha : Engine.txAppend e ltx entry with _ | ⟨e1, ltx1, row⟩
    · rw [ha] at h
      exact absurd h (by simp)
    · rw [ha] at h
      simp only [] at h
      rcases hb : Engine.txAppendList e1 ltx1 es with _ | ⟨e3, ltx3, rs3⟩
      · rw [hb] at h
        exact absurd h (by simp)
      · rw [hb] at h
        simp only [Option.some.injEq, Prod.mk.injEq] at h
        obtain ⟨he, hl, hr⟩ := h
        subst he
        subst hl
        subst hr
        obtain ⟨hinv1, hlog1, hfile1, hmap1⟩ := txAppend_inv ha hinv
        obtain ⟨hinv3, hlog3, hfile3, delta3, hmap3⟩ := ih e1 ltx1 _ _ _ _ hb hinv1
        refine ⟨?_, hlog3.trans hlog1, hfile3.trans hfile1, ?_⟩
        · have : rows ++ (row, entry) :: rs3 = (rows ++ [(row, entry)]) ++ rs3 := by
            simp
          rw [this]
          exact hinv3
        · exact ⟨[ltx.tail] ++ delta3, by rw [hmap3, hmap1, List.append_assoc]⟩

theorem EngInv_txStart {e : Engine} {rows : List (Nat × List Nat)}
    (h : EngInv e rows) : TxInv e (Log.transaction e.log) rows := by
  obtain ⟨h1, h2, h3, h4, h5⟩ := h
  refine ⟨h1, h2, by simp [Log.transaction], ?_, ?_⟩
  · intro o ho
    have := h4 o ho
    simp only [Log.transaction]
    omega
  · intro rb hrb
    obtain ⟨hl, off, hoff, hent⟩ := h5 rb hrb
    exact ⟨hl, off, hoff, by simpa [Log.transaction] using hent⟩

theorem runTxn_commit_inv {e : Engine} {t : Txn} {e2 : Engine}
    {rs rows : List (Nat × List Nat)}
    (hc : t.commit = true) (h : Engine.runTxn e t = some (e2, rs))
    (hinv : EngInv e rows) : EngInv e2 (rows ++ rs) := by
  rw [Engine.runTxn] at h
  rcases ha : Engine.txAppendList e (Log.transaction e.log) t.entries with _ | ⟨e1, ltx1, rs1⟩
  · rw [ha] at h
    exact absurd h (by simp)
  · rw [ha] at h
    simp only [] at h
    rw [hc] at h
    simp only [if_true, Option.some.injEq, Prod.mk.injEq] at h
    obtain ⟨he, hr⟩ := h
    subst he
    subst hr
    obtain ⟨hinv1, hlog1, hfile1, delta, hmap1⟩ :=
      txAppendList_inv _ _ _ _ _ _ _ ha (EngInv_txStart hinv)
    obtain ⟨i1, i2, i3, i4, i5⟩ := hinv1
    refine ⟨i1, i2, ?_, ?_, ?_⟩
    · simp only [Index.syncData]
      rw [hfile1, hinv.2.2.1, hmap1]
      have hdrop : (e.index.map ++ delta).drop e.index.map.length = delta :=
        List.drop_left e.index.map delta
      rw [hdrop, ← serializeOffsets_append, ← hmap1]
    · intro o ho
      have hb := (i4 o ho).1
      refine ⟨?_, (i4 o ho).2⟩
      simp only [LogTx.commit, List.length_append]
      omega
    · intro rb hrb
      obtain ⟨hl, off, hoff, hent⟩ := i5 rb hrb
      exact ⟨hl, off, hoff, hent⟩

theorem EngInv_fresh : EngInv Engine.fresh [] := by
  refine ⟨rfl, by norm_num [Engine.fresh], rfl, ?_, ?_⟩
  · intro o ho
    exact absurd ho (by simp [Engine.fresh])
  · intro rb hrb
    exact absurd hrb (by simp)

theorem runHistoryAux_inv :
    ∀ (hist : List Txn) (e e2 : Engine) (rss : List (List (Nat × List Nat)))
      (rows : List (Nat × List Nat)),
      (∀ t ∈ hist, t.commit = true) →
      Engine.runHistoryAux e hist = some (e2, rss) →
      EngInv e rows → EngInv e2 (rows ++ rss.flatten) := by
  intro hist
  induction hist with
  | nil =>
    intro e e2 rss rows _ h hinv
    simp only [Engine.runHistoryAux, Option.some.injEq, Prod.mk.injEq] at h
    obtain ⟨he, hr⟩ := h
    subst he
    subst hr
    simpa using hinv
  | cons t ts ih =>
    intro e e2 rss rows hall h hinv
    rw [Engine.runHistoryAux] at h
    rcases ha : Engine.runTxn e t with _ | ⟨e1, rs1⟩
    · rw [ha] at h
      exact absurd h (by simp)
    · rw [ha] at h
      simp only [] at h
      rcases hb : Engine.runHistoryAux e1 ts with _ | ⟨e3, rss3⟩
      · rw [hb] at h
        exact absurd h (by simp)
      · rw [hb] at h
        simp only [Option.some.injEq, Prod.mk.injEq] at h
        obtain ⟨he, hr⟩ := h
        subst he
        subst hr
        have h1 := runTxn_commit_inv (hall t (List.mem_cons_self t ts)) ha hinv
        have h2 := ih e1 e3 rss3 (rows ++ rs1)
          (fun x hx => hall x (List.mem_cons_of_mem t hx)) hb h1
        simpa [List.append_assoc] using h2

theorem EngInv_get {e : Engine} {rows : List (Nat × List Nat)} {rb : Nat × List Nat}
    (h : EngInv e rows) (hm : rb ∈ rows) : e.get rb.1 = some (some rb.2) := by
  obtain ⟨hl, off, hoff, hent⟩ := h.2.2.2.2 rb hm
  obtain ⟨hu16, hread⟩ := entryAt_read hent hl
  rw [Engine.get, hoff]
  simp only []
  rw [hu16]
  simp only []
  rw [hread]

theorem EngInv_reopen {e : Engine} {rows : List (Nat × List Nat)} (h : EngInv e rows) :
    e.reopenE = some ⟨⟨e.index.file, e.index.map, e.index.map.length⟩, e.log⟩ ∧
      EngInv ⟨⟨e.index.file, e.index.map, e.index.map.length⟩, e.log⟩ rows := by
  obtain ⟨h1, h2, h3, h4, h5⟩ := h
  have hlen : e.index.file.length = 8 * e.index.map.length := by
    rw [h3, serializeOffsets_length]
  have hdiv : e.index.file.length / 8 = e.index.map.length := by
    rw [hlen]
    omega
  have hparse : parseOffsets (e.index.file.length / 8) e.index.file = e.index.map := by
    rw [hdiv, h3]
    exact parseOffsets_serialize_of_lt _ (fun o ho => (h4 o ho).2)
  constructor
  · simp only [Engine.reopenE, Index.openFile]
    rw [hparse, hdiv, if_pos h2]
  · exact ⟨rfl, h2, h3, h4, h5⟩

/-! ### Claim theorems (concrete evaluations and counterexamples) -/

/-- C2: evaluation of the code at the failing input.  A transaction that
appends one entry `[97]` and is dropped without commit leaves the engine
with `count() = 1` (the `u32` row counter was advanced at append time and
is never rolled back) and `get(0) = Ok(Some([97]))` — the row id is
observable on the live engine — contradicting the claim that the
in-memory index growth is rolled back and `count()` is not advanced. -/
theorem C2_drop_keeps_growth :
    (Engine.runTxn Engine.fresh ⟨[[97]], false⟩).map
      (fun p => (p.1.count, p.1.get 0, p.2)) =
      some (1, some (some [97]), [(0, [97])]) := by
  decide

/-- C4: evaluation of the code at the failing input.  After the
precondition-respecting sequence `insert_nonoverlapping(0,1)`,
`insert_nonoverlapping(1,2)`, `remove(1)` (index 1 is present), the
resulting tree violates the structural invariants: `remove` unconditionally
clears the root in the leaf case even though the removed leaf was not the
root, leaving node 0 with a right-child pointer into the freed slot 1. -/
theorem C4_remove_breaks_invariants :
    c4Run.map ITree.checkInvariants = some false := by
  decide

/-- C5: evaluation of the code at the failing input.  In the tree built by
the precondition-respecting inserts `[5,6)`, `[0,10)`, `[12,15)`, the
query `find(10, 20)` returns `Miss` although the stored interval `[12,15)`
overlaps `[10,20)`: the descent takes the left branch on `a <= left.m`
(here `10 <= 10`) where no left-subtree interval can satisfy the strict
half-open overlap condition `a < nb`, and never reaches the right
subtree. -/
theorem C5_find_misses_overlap :
    c5Tree.map (fun t => (t.find 10 20, t.overlapExists 10 20)) =
      some (some FindResult.Miss, true) := by
  decide

/-- C1 counterexample: the claim as stated is false.  In the history
`[drop [[97]], commit [[98]]]` the committed transaction returns row 1 for
entry `[98]`, and the live engine reads it back; but the dropped
transaction's in-memory index growth was never written to the index file,
so after reopening, row 1 does not exist (`get(1) = Ok(None)`). -/
theorem C1_counterexample : ¬C1Statement := by
  intro hc
  have h := hc [⟨[[97]], false⟩, ⟨[[98]], true⟩]
      ⟨⟨[3, 0, 0, 0, 0, 0, 0, 0], [0, 3], 2⟩, ⟨[1, 0, 97, 1, 0, 98]⟩⟩
      [[(0, [97])], [(1, [98])]] (by decide) 1 ⟨[[98]], true⟩ [(1, [98])]
      (by decide) (by decide) rfl (1, [98]) (by decide) (by decide)
  obtain ⟨-, e2, he2, hget⟩ := h
  have hre : Engine.reopenE
      ⟨⟨[3, 0, 0, 0, 0, 0, 0, 0], [0, 3], 2⟩, ⟨[1, 0, 97, 1, 0, 98]⟩⟩ =
      some ⟨⟨[3, 0, 0, 0, 0, 0, 0, 0], [3], 1⟩, ⟨[1, 0, 97, 1, 0, 98]⟩⟩ := by
    decide
  rw [hre] at he2
  have he2' : e2 = ⟨⟨[3, 0, 0, 0, 0, 0, 0, 0], [3], 1⟩, ⟨[1, 0, 97, 1, 0, 98]⟩⟩ :=
    (Option.some.inj he2).symm
  subst he2'
  exact absurd hget (by decide)

/-- C3 counterexample: the claim as stated is false.  The state reached by
committing one entry and then calling `Engine::reset` is reachable, has
`count() = 0` (reset zeroes `next_row` only), yet `get(0) =
Ok(Some([97]))` because the in-memory offset vector is not cleared —
contradicting `∀ r ≥ count(), get(r) = None`. -/
theorem C3_counterexample : ¬C3Statement := by
  intro hc
  have hr : Reach true (Engine.reset ⟨⟨[0, 0, 0, 0, 0, 0, 0, 0], [0], 1⟩, ⟨[1, 0, 97]⟩⟩) :=
    Reach.reset (Reach.txn (Reach.fresh true)
      (show Engine.runTxn Engine.fresh ⟨[[97]], true⟩ =
        some (⟨⟨[0, 0, 0, 0, 0, 0, 0, 0], [0], 1⟩, ⟨[1, 0, 97]⟩⟩, [(0, [97])]) by decide))
  have h := (hc _ hr 0).2 (by decide)
  exact absurd h (by decide)

/-- C8: boundary behaviors of `log::Transaction::append` and `Engine::get`.
An entry of length exactly 65,535 is accepted (whenever the `u64` tail does
not overflow); any entry of length 65,536 or more fails the assertion
(panic, modelled as `none`) regardless of the transaction state; and a
committed empty entry is read back by `Engine::get` as the empty byte
buffer. -/
theorem C8_boundary :
    (∀ (tx : LogTx) (entry : List Nat), entry.length = 65535 →
      tx.tail + 65537 < 2 ^ 64 → (LogTx.append tx entry).isSome = true) ∧
    (∀ (tx : LogTx) (entry : List Nat), 65536 ≤ entry.length →
      LogTx.append tx entry = none) ∧
    (runHistory [⟨[[]], true⟩]).map (fun p => (p.1.get 0, p.2)) =
      some (some (some []), [[(0, [])]]) := by
  refine ⟨?_, ?_, by decide⟩
  · intro tx entry hlen h
    unfold LogTx.append
    rw [if_pos]
    · rfl
    · exact ⟨by omega, by omega⟩
  · intro tx entry h
    unfold LogTx.append
    rw [if_neg]
    intro hcon
    omega

/-- C8 witness: the boundary statement applied at a concrete transaction
state and concrete entries of lengths 65,535 and 65,536. -/
theorem C8_witness :
    (LogTx.append ⟨[], 0⟩ (List.replicate 65535 0)).isSome = true ∧
    LogTx.append ⟨[], 0⟩ (List.replicate 65536 0) = none :=
  ⟨C8_boundary.1 ⟨[], 0⟩ (List.replicate 65535 0) (List.length_replicate 65535 0) (by norm_num),
   C8_boundary.2.1 ⟨[], 0⟩ (List.replicate 65536 0) (le_of_eq (List.length_replicate 65536 0).symm)⟩

/-- C6: index commit serializes the vector's new suffix as little-endian
`u64`s appended to the index file; reopening reads back exactly the
committed vector; and a file with a torn tail (length not a multiple of 8)
is opened with `n = length / 8`, the partial entry discarded and the file
left unrewritten. -/
theorem C6_index_roundtrip (c s : List Nat) (hcs : ∀ o ∈ c ++ s, o < 2 ^ 64)
    (hlen : (c ++ s).length < 2 ^ 32) :
    (∀ idx : Index, idx.map = c ++ s →
      Index.syncData idx c.length = ⟨idx.file ++ serializeOffsets s, idx.map, idx.next_row⟩) ∧
    Index.openFile ((⟨serializeOffsets c, c ++ s, c.length⟩ : Index).syncData c.length).file =
      some ⟨serializeOffsets (c ++ s), c ++ s, (c ++ s).length⟩ ∧
    (∀ t : List Nat, t.length < 8 →
      Index.openFile (serializeOffsets (c ++ s) ++ t) =
        some ⟨serializeOffsets (c ++ s) ++ t, c ++ s, (c ++ s).length⟩) := by
  have hfile : ((⟨serializeOffsets c, c ++ s, c.length⟩ : Index).syncData c.length).file =
      serializeOffsets (c ++ s) := by
    simp only [Index.syncData]
    rw [List.drop_left, serializeOffsets_append]
  refine ⟨?_, ?_, ?_⟩
  · intro idx hmap
    simp only [Index.syncData, hmap]
    rw [List.drop_left]
  · rw [hfile]
    unfold Index.openFile
    rw [serializeOffsets_length, Nat.mul_div_cancel_left _ (by norm_num : (0:Nat) < 8)]
    rw [if_pos hlen, parseOffsets_serialize_of_lt _ hcs]
  · intro t ht
    unfold Index.openFile
    have hl : (serializeOffsets (c ++ s) ++ t).length = 8 * (c ++ s).length + t.length := by
      rw [List.length_append, serializeOffsets_length]
    have hdiv : (serializeOffsets (c ++ s) ++ t).length / 8 = (c ++ s).length := by
      rw [hl]
      omega
    rw [hdiv, if_pos hlen]
    have hparse : parseOffsets ((c ++ s).length + 0) (serializeOffsets (c ++ s) ++ t) =
        parseOffsets (c ++ s).length (serializeOffsets (c ++ s)) ++ parseOffsets 0 t :=
      parseOffsets_append _ _ _ _ (serializeOffsets_length (c ++ s))
    rw [Nat.add_zero] at hparse
    rw [hparse, parseOffsets_serialize_of_lt _ hcs]
    simp [parseOffsets]

/-- C6 witness: the round trip applied to the committed vector `[5]` with
new suffix `[12345]` and the torn-tail case with a 3-byte tail. -/
theorem C6_witness :
    Index.openFile ((⟨serializeOffsets [5], [5] ++ [12345], [5].length⟩ : Index).syncData
        [5].length).file =
      some ⟨serializeOffsets ([5] ++ [12345]), [5] ++ [12345], ([5] ++ [12345]).length⟩ ∧
    Index.openFile (serializeOffsets ([5] ++ [12345]) ++ [1, 2, 3]) =
      some ⟨serializeOffsets ([5] ++ [12345]) ++ [1, 2, 3], [5] ++ [12345],
        ([5] ++ [12345]).length⟩ :=
  ⟨(C6_index_roundtrip [5] [12345] (by decide) (by decide)).2.1,
   (C6_index_roundtrip [5] [12345] (by decide) (by decide)).2.2 [1, 2, 3] (by decide)⟩

/-- C7: `log::Transaction::append` writes the little-endian `u16` length
then the payload to the buffered writer, returns the pre-write tail, and
advances the tail by `2 + entry.len()`; consequently, over a sequence of
appends in one transaction, the `i`-th returned offset is the starting
tail plus the sum of `2 + length` over the earlier entries. -/
theorem C7_append_offsets :
    (∀ (tx : LogTx) (entry : List Nat), entry.length ≤ 65535 →
      tx.tail + (2 + entry.length) < 2 ^ 64 →
      LogTx.append tx entry =
        some (tx.tail, ⟨tx.buffer ++ (toLE 2 entry.length ++ entry),
          tx.tail + (2 + entry.length)⟩)) ∧
    (∀ (tx : LogTx) (entries : List (List Nat)),
      (∀ e ∈ entries, e.length ≤ 65535) →
      tx.tail + ((entries.map (fun e => 2 + e.length)).sum) < 2 ^ 64 →
      ∃ tx2 offs, LogTx.appendList tx entries = some (tx2, offs) ∧
        tx2.tail = tx.tail + ((entries.map (fun e => 2 + e.length)).sum) ∧
        ∀ i < entries.length,
          offs[i]? =
            some (tx.tail + (((entries.take i).map (fun e => 2 + e.length)).sum))) := by
  have happ : ∀ (tx : LogTx) (entry : List Nat), entry.length ≤ 65535 →
      tx.tail + (2 + entry.length) < 2 ^ 64 →
      LogTx.append tx entry =
        some (tx.tail, ⟨tx.buffer ++ (toLE 2 entry.length ++ entry),
          tx.tail + (2 + entry.length)⟩) := by
    intro tx entry h1 h2
    unfold LogTx.append
    rw [if_pos ⟨h1, h2⟩]
  refine ⟨happ, ?_⟩
  intro tx entries
  induction entries generalizing tx with
  | nil =>
    intro _ _
    refine ⟨tx, [], rfl, by simp, ?_⟩
    intro i hi
    exact absurd hi (by simp)
  | cons e es ih =>
    intro hlen hsum
    simp only [List.map_cons, List.sum_cons] at hsum
    have he : e.length ≤ 65535 := hlen e (List.mem_cons_self e es)
    have htail : tx.tail + (2 + e.length) < 2 ^ 64 := by omega
    have hrest : tx.tail + (2 + e.length) + ((es.map (fun x => 2 + x.length)).sum) < 2 ^ 64 := by
      omega
    obtain ⟨tx2, offs, hrun, htl, hoffs⟩ :=
      ih ⟨tx.buffer ++ (toLE 2 e.length ++ e), tx.tail + (2 + e.length)⟩
        (fun x hx => hlen x (List.mem_cons_of_mem e hx)) hrest
    have htl2 : tx2.tail = tx.tail + (2 + e.length) + ((es.map (fun x => 2 + x.length)).sum) :=
      htl
    refine ⟨tx2, tx.tail :: offs, ?_, ?_, ?_⟩
    · simp only [LogTx.appendList, happ tx e he htail, hrun]
    · rw [htl2]
      simp only [List.map_cons, List.sum_cons]
      omega
    · intro i hi
      cases i with
      | zero => simp
      | succ j =>
        have hj : j < es.length := by simpa using hi
        have hoj : offs[j]? = some (tx.tail + (2 + e.length) +
            (((es.take j).map (fun x => 2 + x.length)).sum)) := hoffs j hj
        rw [List.getElem?_cons_succ, hoj, List.take_succ_cons, List.map_cons, List.sum_cons]
        congr 1
        omega

/-- C7 witness: the append statement applied at a concrete transaction
and the offset formula applied to a concrete two-entry sequence. -/
theorem C7_witness :
    LogTx.append ⟨[], 5⟩ [97] =
      some ((⟨[], 5⟩ : LogTx).tail, ⟨(⟨[], 5⟩ : LogTx).buffer ++ (toLE 2 [97].length ++ [97]),
        (⟨[], 5⟩ : LogTx).tail + (2 + [97].length)⟩) ∧
    ∃ tx2 offs, LogTx.appendList ⟨[], 5⟩ [[97], [98, 99]] = some (tx2, offs) ∧
      tx2.tail = (⟨[], 5⟩ : LogTx).tail +
        ((([[97], [98, 99]] : List (List Nat)).map (fun e => 2 + e.length)).sum) ∧
      ∀ i < ([[97], [98, 99]] : List (List Nat)).length,
        offs[i]? = some ((⟨[], 5⟩ : LogTx).tail +
          ((([[97], [98, 99]] : List (List Nat)).take i).map (fun e => 2 + e.length)).sum) :=
  ⟨C7_append_offsets.1 ⟨[], 5⟩ [97] (by norm_num) (by norm_num),
   C7_append_offsets.2 ⟨[], 5⟩ [[97], [98, 99]] (by decide) (by norm_num)⟩

/-- C1 amended: in histories where every transaction commits (no
transaction is dropped without commit), every `(row, bytes)` pair returned
by a transaction's appends — bytes of length at most 65,535 — is read back
exactly by `Engine::get`, both on the live engine and after dropping and
reopening the engine on the same directory. -/
theorem C1_committed_roundtrip (h : List Txn) (e : Engine)
    (rss : List (List (Nat × List Nat)))
    (hall : ∀ t ∈ h, t.commit = true)
    (hrun : runHistory h = some (e, rss)) :
    ∀ (k : Nat) (t : Txn) (rs : List (Nat × List Nat)),
      h[k]? = some t → rss[k]? = some rs →
      ∀ rb ∈ rs, rb.2.length ≤ 65535 →
        e.get rb.1 = some (some rb.2) ∧
        ∃ e2, e.reopenE = some e2 ∧ e2.get rb.1 = some (some rb.2) := by
  intro k t rs hk hrs rb hrb hlen
  have hinv : EngInv e ([] ++ rss.flatten) :=
    runHistoryAux_inv h Engine.fresh e rss [] hall hrun EngInv_fresh
  rw [List.nil_append] at hinv
  have hmem : rb ∈ rss.flatten :=
    List.mem_flatten_of_mem (List.getElem?_mem hrs) hrb
  obtain ⟨hre, hinv2⟩ := EngInv_reopen hinv
  exact ⟨EngInv_get hinv hmem, _, hre, EngInv_get hinv2 hmem⟩

/-- C1 witness: the amended round trip applied to the one-transaction
history committing the entry `[104, 105]`. -/
theorem C1_witness :
    (⟨⟨[0, 0, 0, 0, 0, 0, 0, 0], [0], 1⟩, ⟨[2, 0, 104, 105]⟩⟩ : Engine).get 0 =
      some (some [104, 105]) ∧
    ∃ e2, (⟨⟨[0, 0, 0, 0, 0, 0, 0, 0], [0], 1⟩, ⟨[2, 0, 104, 105]⟩⟩ : Engine).reopenE =
      some e2 ∧ e2.get 0 = some (some [104, 105]) :=
  C1_committed_roundtrip [⟨[[104, 105]], true⟩]
    ⟨⟨[0, 0, 0, 0, 0, 0, 0, 0], [0], 1⟩, ⟨[2, 0, 104, 105]⟩⟩ [[(0, [104, 105])]]
    (by decide) (by decide) 0 ⟨[[104, 105]], true⟩ [(0, [104, 105])]
    (by decide) (by decide) (0, [104, 105]) (by decide) (by decide)

/-! ### C3 machinery: the Some/None dichotomy in reset-free reachable states -/

/-- Invariant of every reset-free reachable engine state: `next_row`
equals the in-memory vector's length, and all offsets in the vector and in
the index file point at readable positions of the log file. -/
def GetInv (e : Engine) : Prop :=
  e.index.next_row = e.index.map.length ∧
  e.index.map.length < 2 ^ 32 ∧
  (∀ o ∈ e.index.map, o + 2 ≤ e.log.file.length ∧ o < 2 ^ 64) ∧
  8 ∣ e.index.file.length ∧
  (∀ o ∈ parseOffsets (e.index.file.length / 8) e.index.file,
    o + 2 ≤ e.log.file.length ∧ o < 2 ^ 64)

theorem GetInv_fresh : GetInv Engine.fresh := by
  refine ⟨rfl, by norm_num [Engine.fresh], ?_, ⟨0, rfl⟩, ?_⟩
  · intro o ho
    exact absurd ho (by simp [Engine.fresh])
  · intro o ho
    exact absurd ho (by simp [Engine.fresh, parseOffsets])

theorem GetInv_txn {e : Engine} {t : Txn} {e2 : Engine} {rs : List (Nat × List Nat)}
    (h : Engine.runTxn e t = some (e2, rs)) (hi : GetInv e) : GetInv e2 := by
  obtain ⟨g1, g2, g3, g4, g5⟩ := hi
  rw [Engine.runTxn] at h
  rcases ha : Engine.txAppendList e (Log.transaction e.log) t.entries with _ | ⟨e1, ltx1, rs1⟩
  · rw [ha] at h
    exact absurd h (by simp)
  · rw [ha] at h
    simp only [] at h
    have hstart : TxInv e (Log.transaction e.log) [] := by
      refine ⟨g1, g2, by simp [Log.transaction], ?_, ?_⟩
      · intro o ho
        have := g3 o ho
        simp only [Log.transaction]
        omega
      · intro rb hrb
        exact absurd hrb (by simp)
    obtain ⟨⟨i1, i2, i3, i4, _⟩, hlog1, hfile1, delta, hmap1⟩ :=
      txAppendList_inv _ _ _ _ _ _ _ ha hstart
    have hlenb : e1.log.file = e.log.file := by rw [hlog1]
    by_cases hc : t.commit = true
    · rw [if_pos hc] at h
      simp only [Option.some.injEq, Prod.mk.injEq] at h
      obtain ⟨he, -⟩ := h
      subst he
      obtain ⟨m, hm⟩ := g4
      have hdelta : e1.index.map.drop e.index.map.length = delta := by
        rw [hmap1]
        exact List.drop_left e.index.map delta
      refine ⟨i1, i2, ?_, ?_, ?_⟩
      · intro o ho
        have := i4 o ho
        simp only [LogTx.commit, List.length_append]
        omega
      · simp only [Index.syncData, List.length_append, serializeOffsets_length, hdelta]
        rw [hfile1]
        exact ⟨m + delta.length, by omega⟩
      · simp only [Index.syncData, hdelta, hfile1, List.length_append,
          serializeOffsets_length]
        have hdiv : (e.index.file.length + 8 * delta.length) / 8 =
            e.index.file.length / 8 + delta.length := by
          omega
        rw [hdiv]
        have hxs : e.index.file.length = 8 * (e.index.file.length / 8) := by
          omega
        rw [parseOffsets_append _ _ _ _ hxs]
        intro o ho
        rcases List.mem_append.mp ho with hmo | hmo
        · have := g5 o hmo
          simp only [LogTx.commit, List.length_append]
          rw [hlenb]
          omega
        · rw [show delta.length = (serializeOffsets delta).length / 8 by
            rw [serializeOffsets_length]; omega] at hmo
          rw [show (serializeOffsets delta).length / 8 = delta.length by
            rw [serializeOffsets_length]; omega] at hmo
          rw [parseOffsets_serialize] at hmo
          obtain ⟨d, hd, hdo⟩ := List.mem_map.mp hmo
          have hd1 : d ∈ e1.index.map := by
            rw [hmap1]
            exact List.mem_append_right _ hd
          have := i4 d hd1
          subst hdo
          have hmle : d % 2 ^ 64 ≤ d := Nat.mod_le d (2 ^ 64)
          have hmlt : d % 2 ^ 64 < 2 ^ 64 := Nat.mod_lt d (by norm_num)
          simp only [LogTx.commit, List.length_append]
          omega
    · rw [if_neg hc] at h
      simp only [Option.some.injEq, Prod.mk.injEq] at h
      obtain ⟨he, -⟩ := h
      subst he
      refine ⟨i1, i2, ?_, by rw [hfile1]; exact g4, ?_⟩
      · intro o ho
        have := i4 o ho
        simp only [LogTx.commit, List.length_append]
        omega
      · simp only [LogTx.commit, hfile1]
        intro o ho
        have := g5 o ho
        simp only [List.length_append]
        rw [hlenb]
        omega

theorem GetInv_reopen {e e2 : Engine} (h : e.reopenE = some e2) (hi : GetInv e) :
    GetInv e2 := by
  obtain ⟨g1, g2, g3, g4, g5⟩ := hi
  simp only [Engine.reopenE, Index.openFile] at h
  by_cases hn : e.index.file.length / 8 < 2 ^ 32
  · rw [if_pos hn] at h
    simp only [Option.some.injEq] at h
    subst h
    refine ⟨(parseOffsets_length _ _).symm, ?_, ?_, g4, g5⟩
    · rw [parseOffsets_length]
      exact hn
    · intro o ho
      exact g5 o ho
  · rw [if_neg hn] at h
    exact absurd h (by simp)

theorem GetInv_dichotomy {e : Engine} (hi : GetInv e) (r : Nat) :
    (r < e.count → ∃ bs, e.get r = some (some bs)) ∧
    (e.count ≤ r → e.get r = some none) := by
  obtain ⟨g1, g2, g3, g4, g5⟩ := hi
  constructor
  · intro hr
    have hrm : r < e.index.map.length := by
      unfold Engine.count at hr
      omega
    have hsome : e.index.map[r]? = some e.index.map[r] := List.getElem?_eq_getElem hrm
    have hbound := g3 e.index.map[r] (List.getElem_mem hrm)
    have hb0 : e.log.file[e.index.map[r]]? = some e.log.file[e.index.map[r]] :=
      List.getElem?_eq_getElem (by omega)
    have hb1 : e.log.file[e.index.map[r] + 1]? = some e.log.file[e.index.map[r] + 1] :=
      List.getElem?_eq_getElem (by omega)
    refine ⟨readAt e.log.file (e.index.map[r] + 2)
      (e.log.file[e.index.map[r]] + 256 * e.log.file[e.index.map[r] + 1]), ?_⟩
    rw [Engine.get, hsome]
    simp only []
    rw [readU16At, hb0, hb1]
  · intro hr
    have hnone : e.index.map[r]? = none := by
      apply List.getElem?_eq_none
      unfold Engine.count at hr
      omega
    rw [Engine.get, hnone]

theorem Reach_GetInv_aux : ∀ (b : Bool) (e : Engine), Reach b e → b = false → GetInv e := by
  intro b e h
  induction h with
  | fresh _ => exact fun _ => GetInv_fresh
  | txn _ hrun ih => exact fun hb => GetInv_txn hrun (ih hb)
  | reset _ _ => exact fun hb => absurd hb (by simp)
  | reopen _ hre ih => exact fun hb => GetInv_reopen hre (ih hb)

/-- C3 amended: in every engine state reachable without `Engine::reset`
(fresh open, transactions — committed or dropped — and reopens), `get(r)`
returns `Some` for every `r < count()` and `None` for every
`r ≥ count()`. -/
theorem C3_dichotomy_noreset (e : Engine) (h : Reach false e) (r : Nat) :
    (r < e.count → ∃ bs, e.get r = some (some bs)) ∧
    (e.count ≤ r → e.get r = some none) :=
  GetInv_dichotomy (Reach_GetInv_aux false e h rfl) r

/-- C3 witness: the dichotomy applied to the freshly opened engine at
row 0. -/
theorem C3_witness : Engine.get Engine.fresh 0 = some none :=
  (C3_dichotomy_noreset Engine.fresh (Reach.fresh false) 0).2 (Nat.le_refl 0)

/-- C9: the `Engine::open` protocol.  A non-directory path fails
`NotADirectory`; an existing `LOCK` fails `Busy`; otherwise open succeeds,
creating the directory if absent, the `LOCK` file, and the `IDX0`/`LOG0`
files; a second open of the resulting state fails `Busy`; dropping the
engine removes `LOCK`, after which open succeeds again. -/
theorem C9_open_protocol (fs : Fs)
    (hidx : (fs.idxFile.getD []).length / 8 < 2 ^ 32) :
    (fs.pathExists = true → fs.isDir = false →
      engineOpen fs = some (OpenOutcome.err fs OpenErr.notADirectory)) ∧
    (fs.pathExists = true → fs.isDir = true → fs.lockExists = true →
      engineOpen fs = some (OpenOutcome.err fs OpenErr.busy)) ∧
    (fs.lockExists = false → (fs.pathExists = true → fs.isDir = true) →
      fs.idxOpenOk = true → fs.logOpenOk = true →
      ∃ fs2 e, engineOpen fs = some (OpenOutcome.ok fs2 e) ∧
        fs2.pathExists = true ∧ fs2.isDir = true ∧ fs2.lockExists = true ∧
        fs2.idxFile = some (fs.idxFile.getD []) ∧
        fs2.logFile = some (fs.logFile.getD []) ∧
        engineOpen fs2 = some (OpenOutcome.err fs2 OpenErr.busy) ∧
        (engineDrop fs2).lockExists = false ∧
        ∃ fs3 e2, engineOpen (engineDrop fs2) = some (OpenOutcome.ok fs3 e2)) := by
  obtain ⟨pe, dir, lk, idxf, logf, iok, lok⟩ := fs
  simp only [Fs.idxFile] at hidx
  refine ⟨?_, ?_, ?_⟩
  · intro hpe hdir
    subst hpe
    subst hdir
    simp [engineOpen]
  · intro hpe hdir hlk
    subst hpe
    subst hdir
    subst hlk
    simp [engineOpen]
  · intro hlk hpd hiok hlok
    subst hlk
    subst hiok
    subst hlok
    have hidx2 : (idxf.getD []).length / 8 < 4294967296 := by simpa using hidx
    have hbusy : engineOpen ⟨true, true, true, some (idxf.getD []),
        some (logf.getD []), true, true⟩ =
        some (OpenOutcome.err ⟨true, true, true, some (idxf.getD []),
          some (logf.getD []), true, true⟩ OpenErr.busy) := by
      simp [engineOpen]
    have hreopen : engineOpen ⟨true, true, false, some (idxf.getD []),
        some (logf.getD []), true, true⟩ =
        some (OpenOutcome.ok ⟨true, true, true, some (idxf.getD []),
          some (logf.getD []), true, true⟩
          ⟨⟨idxf.getD [], parseOffsets ((idxf.getD []).length / 8) (idxf.getD []),
            (idxf.getD []).length / 8⟩, ⟨logf.getD []⟩⟩) := by
      simp [engineOpen, Index.openFile, hidx2]
    cases pe
    case true =>
      have hdir := hpd rfl
      subst hdir
      have hopen : engineOpen ⟨true, true, false, idxf, logf, true, true⟩ =
          some (OpenOutcome.ok ⟨true, true, true, some (idxf.getD []),
            some (logf.getD []), true, true⟩
            ⟨⟨idxf.getD [], parseOffsets ((idxf.getD []).length / 8) (idxf.getD []),
              (idxf.getD []).length / 8⟩, ⟨logf.getD []⟩⟩) := by
        simp [engineOpen, Index.openFile, hidx2]
      exact ⟨_, _, hopen, rfl, rfl, rfl, rfl, rfl, hbusy, rfl, _, _, hreopen⟩
    case false =>
      have hopen : engineOpen ⟨false, dir, false, idxf, logf, true, true⟩ =
          some (OpenOutcome.ok ⟨true, true, true, some (idxf.getD []),
            some (logf.getD []), true, true⟩
            ⟨⟨idxf.getD [], parseOffsets ((idxf.getD []).length / 8) (idxf.getD []),
              (idxf.getD []).length / 8⟩, ⟨logf.getD []⟩⟩) := by
        simp [engineOpen, Index.openFile, hidx2]
      exact ⟨_, _, hopen, rfl, rfl, rfl, rfl, rfl, hbusy, rfl, _, _, hreopen⟩

/-- C9 witness: the protocol theorem applied at a locked directory. -/
theorem C9_witness :
    engineOpen ⟨true, true, true, none, none, true, true⟩ =
      some (OpenOutcome.err ⟨true, true, true, none, none, true, true⟩ OpenErr.busy) :=
  (C9_open_protocol ⟨true, true, true, none, none, true, true⟩ (by decide)).2.1 rfl rfl rfl

/-- C10: if `Engine::open` fails with an I/O error in a step after the
`LOCK` file has been created (`Index::open` of `IDX0` or `Log::open` of
`LOG0`), the `LOCK` file is left in place, and every subsequent open of
the same directory fails with `Busy`. -/
theorem C10_lock_leak (fs fs1 : Fs)
    (h : engineOpen fs = some (OpenOutcome.err fs1 OpenErr.ioError)) :
    fs1.lockExists = true ∧
      engineOpen fs1 = some (OpenOutcome.err fs1 OpenErr.busy) := by
  obtain ⟨pe, dir, lk, idxf, logf, iok, lok⟩ := fs
  cases pe <;> cases dir <;> cases lk <;> cases iok <;> cases lok <;>
    simp only [engineOpen] at h <;>
    try simp at h
  all_goals try (subst h; exact ⟨rfl, by simp [engineOpen]⟩)
  all_goals
    rcases hio : Index.openFile (idxf.getD []) with _ | idx <;> rw [hio] at h <;> simp at h
  all_goals (subst h; exact ⟨rfl, by simp [engineOpen]⟩)

/-- C10 witness: an open whose `Index::open` step fails leaves `LOCK`
behind and the next open reports `Busy`. -/
theorem C10_witness :
    (⟨true, true, true, none, none, false, true⟩ : Fs).lockExists = true ∧
      engineOpen ⟨true, true, true, none, none, false, true⟩ =
        some (OpenOutcome.err ⟨true, true, true, none, none, false, true⟩ OpenErr.busy) :=
  C10_lock_leak ⟨true, true, false, none, none, false, true⟩ _ (by decide)

end Lengine
